import Mathlib

/-!
Verification of the agent-trace attribution engine (trace-store module).

The TypeScript source is shallowly embedded: JavaScript strings are Lean
`String`s (operated on through their character list `String.data`, which
matches JavaScript's code-unit view for the ASCII data handled here),
`undefined`-able values are `Option`s, and the JavaScript standard-library
primitives used by the source (`String.prototype.includes`,
`String.prototype.startsWith`, `String.prototype.indexOf`,
`String.prototype.split`, `String.prototype.trim`) are modelled by the
`js*`-named executable functions below.  File-system and process state
(workspace root, uuid, clock, VCS, file contents) are passed explicitly.
-/

set_option maxRecDepth 4000

/-- Model of `content.split(sep)` for a one-character separator: splits a
character list at every occurrence of `c`, keeping empty segments, exactly
like JavaScript `String.prototype.split`. -/
def splitOnChar (c : Char) : List Char → List (List Char)
  | [] => [[]]
  | a :: rest =>
    if a = c then [] :: splitOnChar c rest
    else
      match splitOnChar c rest with
      | [] => [[a]]
      | l :: ls => (a :: l) :: ls

/-- Number of newline characters in a character list; `countNl (take idx s) + 1`
models `s.substring(0, idx).split("\n").length` from the source. -/
def countNl (l : List Char) : Nat := (l.filter (fun a => a = '\n')).length

/-- Model of JavaScript `hay.indexOf(needle)`: index of the first occurrence
of `needle` as a contiguous sublist of `hay` (`none` models `-1`). -/
def strIndexOf (hay needle : List Char) : Option Nat :=
  match hay with
  | [] => if needle.isPrefixOf ([] : List Char) then some 0 else none
  | a :: rest =>
    if needle.isPrefixOf (a :: rest) then some 0
    else (strIndexOf rest needle).map (fun n => n + 1)

/-- Model of JavaScript `s.includes(c)` for a single-character search string. -/
def jsIncludesChar (s : String) (c : Char) : Bool := s.data.contains c

/-- Model of JavaScript `s.startsWith(pre)`. -/
def jsStartsWith (s pre : String) : Bool := pre.data.isPrefixOf s.data

/-- A line range in the post-edit file, 1-indexed and inclusive
(source interface `RangePosition`). -/
structure RangePosition where
  start_line : Nat
  end_line : Nat
deriving DecidableEq, Repr

/-- The explicit range optionally attached to a `FileEdit` by the editing
tool (the `range` field of the source's `FileEdit` interface). -/
structure ExplicitRange where
  start_line_number : Nat
  end_line_number : Nat
  start_column : Nat
  end_column : Nat
deriving DecidableEq, Repr

/-- One edit supplied by the editing tool (source interface `FileEdit`). -/
structure FileEdit where
  old_string : String
  new_string : String
  range : Option ExplicitRange
deriving DecidableEq, Repr

/-- The ordered provider table of `normalizeModelId` (the source's
`prefixes` record literal; `Object.entries` preserves this insertion order). -/
def providerTable : List (String × String) :=
  [("claude-", "anthropic"), ("gpt-", "openai"), ("o1", "openai"),
   ("o3", "openai"), ("gemini-", "google")]

/-- Translation of `normalizeModelId`: falsy input (undefined or empty) gives
undefined; an id already containing `/` is returned unchanged; otherwise the
first matching entry of the ordered provider table qualifies the id; with no
match the id is returned unchanged. -/
def normalizeModelId (model : Option String) : Option String :=
  match model with
  | none => none
  | some m =>
    if m = "" then none
    else if jsIncludesChar m '/' then some m
    else
      match providerTable.find? (fun p => jsStartsWith m p.1) with
      | some p => some (p.2 ++ "/" ++ m)
      | none => some m

/-- The look-ahead scan of `diffToFindChangedLines`: index of the first line
in the remaining old lines equal to the current new line (the source's inner
`for (let lookAhead = oldIdx; ...)` loop, indices relative to `oldIdx`). -/
def lookAheadIdx (lines : List (List Char)) (target : List Char) : Option Nat :=
  match lines with
  | [] => none
  | l :: ls => if l = target then some 0 else (lookAheadIdx ls target).map (fun n => n + 1)

/-- The main loop of `diffToFindChangedLines`.  `oldRest` is the suffix of the
old lines from the mutable `oldIdx` on; `newIdx` is the loop counter.  A head
match consumes one old line as context; otherwise a look-ahead hit realigns past
the deleted old lines; otherwise the current new line offset is recorded. -/
def diffGo (oldRest newRest : List (List Char)) (newIdx : Nat) : List Nat :=
  match newRest with
  | [] => []
  | n :: ns =>
    match oldRest with
    | o :: os =>
      if o = n then diffGo os ns (newIdx + 1)
      else
        match lookAheadIdx (o :: os) n with
        | some j => diffGo ((o :: os).drop (j + 1)) ns (newIdx + 1)
        | none => newIdx :: diffGo (o :: os) ns (newIdx + 1)
    | [] => newIdx :: diffGo [] ns (newIdx + 1)

/-- Translation of `diffToFindChangedLines`: 0-indexed offsets of the lines of
`newStr` that are genuinely new or modified relative to `oldStr`. -/
def diffToFindChangedLines (oldStr newStr : String) : List Nat :=
  diffGo (splitOnChar '\n' oldStr.data) (splitOnChar '\n' newStr.data) 0

/-- The range-merging loop of `computeRangePositions` case 2: adjacent changed
offsets extend the current `[rangeStart, rangeEnd]`; a gap flushes it. -/
def mergeGo (startLine rangeStart rangeEnd : Nat) : List Nat → List RangePosition
  | [] => [{ start_line := startLine + rangeStart, end_line := startLine + rangeEnd }]
  | o :: rest =>
    if o = rangeEnd + 1 then mergeGo startLine rangeStart o rest
    else { start_line := startLine + rangeStart, end_line := startLine + rangeEnd } ::
      mergeGo startLine o o rest

/-- Converts changed line offsets to merged line ranges anchored at
`startLine` (empty offsets give no range). -/
def mergeOffsets (startLine : Nat) (offsets : List Nat) : List RangePosition :=
  match offsets with
  | [] => []
  | o :: rest => mergeGo startLine o o rest

/-- Case 3 of `computeRangePositions`: attribute the entire `new_string`,
anchored at its first occurrence in the file content when locatable, else at
line 1. -/
def fallbackRange (edit : FileEdit) (fileContent : Option String) : List RangePosition :=
  let lineCount := (splitOnChar '\n' edit.new_string.data).length
  match fileContent with
  | some fc =>
    if fc ≠ "" then
      match strIndexOf fc.data edit.new_string.data with
      | some idx =>
        let startLine := countNl (fc.data.take idx) + 1
        [{ start_line := startLine, end_line := startLine + lineCount - 1 }]
      | none => [{ start_line := 1, end_line := lineCount }]
    else [{ start_line := 1, end_line := lineCount }]
  | none => [{ start_line := 1, end_line := lineCount }]

/-- The per-edit body of `computeRangePositions`' `flatMap`: an explicit range
is trusted verbatim; with old text, new text, and (truthy) file content the new
text is located in the file and diffed against the old text; otherwise the
fallback attributes the entire new text. -/
def computeRangeForEdit (edit : FileEdit) (fileContent : Option String) : List RangePosition :=
  match edit.range with
  | some r => [{ start_line := r.start_line_number, end_line := r.end_line_number }]
  | none =>
    match fileContent with
    | some fc =>
      if edit.old_string ≠ "" ∧ edit.new_string ≠ "" ∧ fc ≠ "" then
        match strIndexOf fc.data edit.new_string.data with
        | some idx =>
          let startLine := countNl (fc.data.take idx) + 1
          mergeOffsets startLine (diffToFindChangedLines edit.old_string edit.new_string)
        | none => fallbackRange edit fileContent
      else fallbackRange edit fileContent
    | none => fallbackRange edit fileContent

/-- Translation of `computeRangePositions`: edits with falsy (empty)
`new_string` are dropped, the rest are flat-mapped through the per-edit
range computation. -/
def computeRangePositions (edits : List FileEdit) (fileContent : Option String) :
    List RangePosition :=
  ((edits.filter (fun e => e.new_string != "")).map
    (fun e => computeRangeForEdit e fileContent)).flatten

/-- Path components: split on `/` and drop empty segments, matching how Node's
posix `path.relative` decomposes already-absolute, normalized paths. -/
def pathSegments (p : String) : List String :=
  ((splitOnChar '/' p.data).filter (fun l => l != [])).map (fun l => String.mk l)

/-- Drops the longest common leading run of two segment lists (the common-root
computation inside Node's `path.relative`). -/
def stripCommon : List String → List String → List String × List String
  | x :: xs, y :: ys => if x = y then stripCommon xs ys else (x :: xs, y :: ys)
  | xs, ys => (xs, ys)

/-- Model of Node's posix `path.relative(src, dst)` for absolute normalized
paths: one `..` per remaining source segment, then the remaining destination
segments. -/
def nodeRelative (src dst : String) : String :=
  let p := stripCommon (pathSegments src) (pathSegments dst)
  String.intercalate "/" (p.1.map (fun _ => "..") ++ p.2)

/-- Translation of `toRelativePath`: a string-prefix test against the root
selects between `relative(root, path)` and the path unchanged. -/
def toRelativePath (absolutePath root : String) : String :=
  if jsStartsWith absolutePath root then nodeRelative root absolutePath else absolutePath

/-- The claim's reading of `path falls under the detected workspace root`:
the path is the root itself or lives in the root directory proper (the root
followed by a path separator is a prefix). -/
def fallsUnderRoot (path root : String) : Bool :=
  path == root || (root ++ "/").data.isPrefixOf path.data

/-- Contributor kinds of the trace schema. -/
inductive ContributorType
  | human
  | ai
  | mixed
  | unknown
deriving DecidableEq, Repr

/-- A contributor: kind plus optional normalized model id. -/
structure Contributor where
  type : ContributorType
  model_id : Option String
deriving DecidableEq, Repr

/-- A line range of the trace schema (source interface `Range`). -/
structure Range where
  start_line : Nat
  end_line : Nat
  content_hash : Option String
  contributor : Option Contributor
deriving DecidableEq, Repr

/-- A conversation entry of the trace schema (source interface `Conversation`). -/
structure Conversation where
  url : Option String
  contributor : Option Contributor
  ranges : List Range
  related : Option (List (String × String))
deriving DecidableEq, Repr

/-- A per-file entry of the trace schema (source interface `FileEntry`). -/
structure FileEntry where
  path : String
  conversations : List Conversation
deriving DecidableEq, Repr

/-- Version-control systems of the trace schema. -/
inductive VcsType
  | git
  | jj
  | hg
  | svn
deriving DecidableEq, Repr

/-- VCS type and revision (source interface `Vcs`). -/
structure Vcs where
  type : VcsType
  revision : String
deriving DecidableEq, Repr

/-- Originating tool name and optional version. -/
structure ToolInfo where
  name : String
  version : Option String
deriving DecidableEq, Repr

/-- A full trace record (source interface `TraceRecord`); metadata is carried
opaquely as a key-value list. -/
structure TraceRecord where
  version : String
  id : String
  timestamp : String
  vcs : Option Vcs
  tool : Option ToolInfo
  files : List FileEntry
  metadata : Option (List (String × String))
deriving DecidableEq, Repr

/-- The process environment consulted by `createTrace`, passed explicitly:
workspace root (`getWorkspaceRoot`), fresh uuid (`crypto.randomUUID`), current
timestamp (`new Date().toISOString()`), VCS info (`getVcsInfo`) and tool info
(`getToolInfo`).  These environment collaborators are out of the core's scope. -/
structure TraceEnv where
  workspaceRoot : String
  uuid : String
  timestamp : String
  vcs : Option Vcs
  tool : ToolInfo
deriving DecidableEq, Repr

/-- The options bag of `createTrace`. -/
structure TraceOpts where
  model : Option String
  rangePositions : Option (List RangePosition)
  transcript : Option String
  metadata : Option (List (String × String))
deriving DecidableEq, Repr

/-- The source's `opts.rangePositions.map((pos) => ({...pos}))`: a
`RangePosition` copied into a schema `Range` with only the line fields set. -/
def rangeOfPos (pos : RangePosition) : Range :=
  { start_line := pos.start_line, end_line := pos.end_line,
    content_hash := none, contributor := none }

/-- The default range `{start_line: 1, end_line: 1}` used when no range
positions were computed. -/
def defaultRange : Range :=
  { start_line := 1, end_line := 1, content_hash := none, contributor := none }

/-- Translation of `createTrace`: builds the record with normalized model id,
optional `file://` transcript url, computed or default ranges, relativized
path, and environment-supplied id, timestamp, vcs and tool fields. -/
def createTrace (env : TraceEnv) (type : ContributorType) (filePath : String)
    (opts : TraceOpts) : TraceRecord :=
  let root := env.workspaceRoot
  let modelId := normalizeModelId opts.model
  let conversationUrl : Option String :=
    match opts.transcript with
    | some t => if t ≠ "" then some ("file://" ++ t) else none
    | none => none
  let ranges : List Range :=
    match opts.rangePositions with
    | some l => if l.length = 0 then [defaultRange] else l.map rangeOfPos
    | none => [defaultRange]
  let conversation : Conversation :=
    { url := conversationUrl,
      contributor := some { type := type, model_id := modelId },
      ranges := ranges, related := none }
  { version := "1.0", id := env.uuid, timestamp := env.timestamp, vcs := env.vcs,
    tool := some env.tool,
    files := [{ path := toRelativePath filePath root, conversations := [conversation] }],
    metadata := opts.metadata }

/-- A concrete builder environment used by witnesses and counterexamples. -/
def envP : TraceEnv :=
  { workspaceRoot := "/home/user/project",
    uuid := "00000000-0000-0000-0000-000000000000",
    timestamp := "2026-01-01T00:00:00.000Z", vcs := none,
    tool := { name := "cursor", version := none } }

/-- An options bag with everything absent. -/
def emptyOpts : TraceOpts :=
  { model := none, rangePositions := none, transcript := none, metadata := none }

/-- JavaScript ASCII whitespace test used by `trim` (the Unicode cases do not
arise in the data considered). -/
def isWspChar (c : Char) : Bool := c == ' ' || c == '\t' || c == '\r' || c == '\n'

/-- Model of JavaScript `line.trim()`. -/
def jsTrim (l : List Char) : List Char :=
  ((l.dropWhile isWspChar).reverse.dropWhile isWspChar).reverse

/-- The leading characters of a transcript line of the shape
`\x7b"message":\x7b"model":"<id>"\x7d\x7d`. -/
def modelLineHead : List Char := "\x7b\"message\":\x7b\"model\":\"".data

/-- Model of the platform `JSON.parse` composed with the source's
`entry.message?.model` truthiness test, restricted to single-object lines of
the exact shape `\x7b"message":\x7b"model":"<id>"\x7d\x7d` with a non-empty,
quote-free and backslash-free id: exactly such lines yield the id, every
other line is treated as not model-bearing.  Every line this model accepts is
accepted by `JSON.parse` with the same `message.model` value; transcript
lines of other JSON shapes are conservatively rejected. -/
def parseLineModel (l : List Char) : Option (List Char) :=
  if modelLineHead.isPrefixOf l then
    let rest := l.drop modelLineHead.length
    let m := rest.takeWhile (fun c => c != '"')
    if m ≠ [] ∧ m.all (fun c => c != '\\') ∧ rest.drop m.length = "\"\x7d\x7d".data then
      some m
    else none
  else none

/-- The window scan of `extractModelFromTranscript`: lines are visited from
the end of the window backward; blank (after trim) and unparsable lines are
silently skipped; the model-bearing line closest to the window's end wins. -/
def scanLines : List (List Char) → Option (List Char)
  | [] => none
  | l :: ls =>
    match scanLines ls with
    | some m => some m
    | none =>
      let t := jsTrim l
      if t = [] then none else parseLineModel t

/-- The expanding-window loop of `extractModelFromTranscript`: read the last
`readSize` characters, scan their lines from the end, and return on a hit;
otherwise stop after a whole-file window, else double the window (capped at
the file size) and retry.  The structural `fuel` argument only serves Lean's
termination checker; the wrapper passes `size + 1`, which the loop never
exhausts because the window grows strictly until it covers the file. -/
def extractLoop (file : List Char) (readSize fuel : Nat) : Option (List Char) :=
  match fuel with
  | 0 => none
  | fuel + 1 =>
    match scanLines (splitOnChar '\n' (file.drop (file.length - readSize))) with
    | some m => some m
    | none =>
      if file.length ≤ readSize then none
      else extractLoop file (min file.length (2 * readSize)) fuel

/-- Translation of `extractModelFromTranscript`: the `none` input models a
file that could not be opened or read (the source's catch-all returns
undefined); otherwise the expanding-window loop runs from `min size 4096`. -/
def extractModelFromTranscript (file : Option String) : Option String :=
  match file with
  | none => none
  | some s =>
    (extractLoop s.data (min s.data.length (4 * 1024)) (s.data.length + 1)).map
      (fun l => String.mk l)

/-- The claim's reading of the extraction result: the model field of the line
closest to the end of the file that parses and carries one, blank and
unparsable lines skipped; `none` when no line qualifies. -/
def specLatestModel (f : String) : Option String :=
  (scanLines (splitOnChar '\n' f.data)).map (fun l => String.mk l)

/-- Strict suffixes of a line. -/
def strictTails (l : List Char) : List (List Char) := l.tails.drop 1

/-- No strict suffix of any line of the file parses as a model-bearing
record after trimming: this rules out a window boundary cutting a line into
a fragment that itself parses.  Realistic transcripts satisfy it. -/
def noStrictSuffixParses (f : List Char) : Bool :=
  (splitOnChar '\n' f).all (fun l => (strictTails l).all
    (fun s => (parseLineModel (jsTrim s)).isNone))

/-- A transcript line `\x7b"message":\x7b"model":"A"\x7d\x7d` (25 characters). -/
def lineA : List Char := "\x7b\"message\":\x7b\"model\":\"A\"\x7d\x7d".data

/-- The 4072-character model id of the adversarial second transcript line. -/
def bigId : List Char := List.replicate 4072 'b'

/-- A 4098-character line that does not parse as JSON (two leading junk
characters) but whose 4096-character proper suffix
`\x7b"message":\x7b"model":"bb...b"\x7d\x7d` does parse. -/
def lineB : List Char := 'X' :: 'X' :: (modelLineHead ++ bigId ++ "\"\x7d\x7d".data)

/-- A 4124-character transcript `lineA ++ "\n" ++ lineB`: its size exceeds the
initial 4096-byte window by exactly the two junk characters of `lineB`, so
the first window boundary falls exactly before the `\x7b` inside `lineB`. -/
def bigTranscript : String := String.mk (lineA ++ '\n' :: lineB)

/-- The 4096-character window content that the first read of `bigTranscript`
yields: the second line minus its two junk characters. -/
def windowContent : List Char := modelLineHead ++ (bigId ++ "\"\x7d\x7d".data)

/-- A two-line transcript with models `m1` then `m2`. -/
def sampleTranscript : String :=
  "\x7b\"message\":\x7b\"model\":\"m1\"\x7d\x7d\n\x7b\"message\":\x7b\"model\":\"m2\"\x7d\x7d"

/-- The file-system state seen by `appendTrace`, passed explicitly: whether
the `.agent-trace` log directory exists, whether the two syscalls
(`mkdirSync`, `appendFileSync`) would fail, and the current log content. -/
structure FsState where
  dirExists : Bool
  mkdirFails : Bool
  appendFails : Bool
  logContent : String
deriving DecidableEq, Repr

/-- The `appendFileSync(filePath, JSON.stringify(trace) + "\n")` step of
`appendTrace`; serialization is abstracted as the `stringify` argument. -/
def appendToLog (stringify : TraceRecord → String) (fs : FsState) (trace : TraceRecord) :
    Except String FsState :=
  if fs.appendFails then Except.error "appendFileSync failed"
  else Except.ok { fs with logContent := fs.logContent ++ stringify trace ++ "\n" }

/-- Translation of `appendTrace`: create the log directory if absent, then
append one serialized line.  Neither syscall is wrapped in a catch, so their
failures propagate to the caller. -/
def appendTrace (stringify : TraceRecord → String) (fs : FsState) (trace : TraceRecord) :
    Except String FsState :=
  if !fs.dirExists then
    if fs.mkdirFails then Except.error "mkdirSync failed"
    else appendToLog stringify { fs with dirExists := true } trace
  else appendToLog stringify fs trace

/-- The `(s ++ t).data` unfolding for `String.append`. -/
theorem strData_append (s t : String) : (s ++ t).data = s.data ++ t.data := by
  cases s; cases t; rfl

theorem jsIncludesChar_append_slash (a b : String) :
    jsIncludesChar (a ++ "/" ++ b) '/' = true := by
  have h : '/' ∈ (a ++ "/" ++ b).data := by
    rw [strData_append, strData_append]
    refine List.mem_append.mpr (Or.inl ?_)
    refine List.mem_append.mpr (Or.inr ?_)
    decide
  simp only [jsIncludesChar, List.contains]
  exact List.elem_iff.mpr h

theorem append_slash_ne_empty (a b : String) : a ++ "/" ++ b ≠ "" := by
  intro h
  have hd : (a ++ "/" ++ b).data = ("" : String).data := by rw [h]
  rw [strData_append, strData_append] at hd
  simp at hd

/-- C10: `normalizeModelId` is idempotent on every input: a provider-qualified
result contains `/` and is returned unchanged on a second pass, and an
unqualified result matched no table entry and is returned unchanged again. -/
theorem normalizeModelId_idempotent (m : Option String) :
    normalizeModelId (normalizeModelId m) = normalizeModelId m := by
  match m with
  | none => rfl
  | some s =>
    by_cases hs : s = ""
    · simp [normalizeModelId, hs]
    · by_cases hinc : jsIncludesChar s '/'
      · simp [normalizeModelId, hs, hinc]
      · rcases hfind : providerTable.find? (fun p => jsStartsWith s p.1) with _ | p
        · simp [normalizeModelId, hs, hinc, hfind]
        · have hne := append_slash_ne_empty p.2 s
          have hslash := jsIncludesChar_append_slash p.2 s
          simp [normalizeModelId, hs, hinc, hfind, hne, hslash]

/-- C7: the full contract of `normalizeModelId`: undefined and empty input
give undefined; input containing the provider separator is unchanged; the
first matching entry of the ordered table (claude- to anthropic, gpt- to
openai, o1 to openai, o3 to openai, gemini- to google) qualifies the id;
no matching entry leaves the id unchanged; in particular
`claude-3-opus` maps to `anthropic/claude-3-opus` and `mistral-large`
is unchanged. -/
theorem normalizeModelId_contract :
    normalizeModelId none = none ∧
    normalizeModelId (some "") = none ∧
    (∀ m : String, m ≠ "" → jsIncludesChar m '/' = true →
      normalizeModelId (some m) = some m) ∧
    (∀ m : String, m ≠ "" → jsIncludesChar m '/' = false →
      (∀ p ∈ providerTable, jsStartsWith m p.1 = false) →
      normalizeModelId (some m) = some m) ∧
    (∀ m : String, m ≠ "" → jsIncludesChar m '/' = false →
      jsStartsWith m "claude-" = true →
      normalizeModelId (some m) = some ("anthropic" ++ "/" ++ m)) ∧
    (∀ m : String, m ≠ "" → jsIncludesChar m '/' = false →
      jsStartsWith m "claude-" = false → jsStartsWith m "gpt-" = true →
      normalizeModelId (some m) = some ("openai" ++ "/" ++ m)) ∧
    (∀ m : String, m ≠ "" → jsIncludesChar m '/' = false →
      jsStartsWith m "claude-" = false → jsStartsWith m "gpt-" = false →
      jsStartsWith m "o1" = false → jsStartsWith m "o3" = false →
      jsStartsWith m "gemini-" = true →
      normalizeModelId (some m) = some ("google" ++ "/" ++ m)) ∧
    normalizeModelId (some "claude-3-opus") = some "anthropic/claude-3-opus" ∧
    normalizeModelId (some "mistral-large") = some "mistral-large" ∧
    normalizeModelId (some "gpt-4") = some "openai/gpt-4" ∧
    normalizeModelId (some "o1-preview") = some "openai/o1-preview" ∧
    normalizeModelId (some "o3-mini") = some "openai/o3-mini" ∧
    normalizeModelId (some "gemini-pro") = some "google/gemini-pro" := by
  refine ⟨rfl, by decide, ?_, ?_, ?_, ?_, ?_, by decide, by decide, by decide,
    by decide, by decide, by decide⟩
  · intro m hm hinc
    simp [normalizeModelId, hm, hinc]
  · intro m hm hinc hnone
    have h1 := hnone ("claude-", "anthropic") (by simp [providerTable])
    have h2 := hnone ("gpt-", "openai") (by simp [providerTable])
    have h3 := hnone ("o1", "openai") (by simp [providerTable])
    have h4 := hnone ("o3", "openai") (by simp [providerTable])
    have h5 := hnone ("gemini-", "google") (by simp [providerTable])
    simp [normalizeModelId, hm, hinc, providerTable, List.find?, h1, h2, h3, h4, h5]
  · intro m hm hinc h1
    simp [normalizeModelId, hm, hinc, providerTable, List.find?, h1]
  · intro m hm hinc h1 h2
    simp [normalizeModelId, hm, hinc, providerTable, List.find?, h1, h2]
  · intro m hm hinc h1 h2 h3 h4 h5
    simp [normalizeModelId, hm, hinc, providerTable, List.find?, h1, h2, h3, h4, h5]

/-- Witness for C7 at concrete inputs. -/
theorem normalizeModelId_contract_witness :
    normalizeModelId (some "anthropic/claude-3-opus") = some "anthropic/claude-3-opus" :=
  normalizeModelId_contract.2.2.1 "anthropic/claude-3-opus" (by decide) (by decide)

theorem splitOnChar_ne_nil (c : Char) (l : List Char) : splitOnChar c l ≠ [] := by
  match l with
  | [] => simp [splitOnChar]
  | a :: rest =>
    simp only [splitOnChar]
    split
    · simp
    · split <;> simp

/-- The changed offsets produced by the diff loop are strictly increasing and
bounded below by the running new-line index. -/
theorem diffGo_bounds (newRest : List (List Char)) :
    ∀ (oldRest : List (List Char)) (i : Nat),
      List.Pairwise (fun a b => a < b) (diffGo oldRest newRest i) ∧
      ∀ x ∈ diffGo oldRest newRest i, i ≤ x := by
  induction newRest with
  | nil => intro oldRest i; simp [diffGo]
  | cons n ns ih =>
    intro oldRest i
    have emitCase : ∀ rest : List Nat,
        List.Pairwise (fun a b => a < b) rest → (∀ x ∈ rest, i + 1 ≤ x) →
        List.Pairwise (fun a b => a < b) (i :: rest) ∧ ∀ x ∈ i :: rest, i ≤ x := by
      intro rest hp hb
      refine ⟨List.pairwise_cons.mpr ⟨fun x hx => Nat.lt_of_succ_le (hb x hx), hp⟩, ?_⟩
      intro x hx
      rcases List.mem_cons.mp hx with rfl | hx
      · exact Nat.le_refl x
      · exact Nat.le_of_succ_le (hb x hx)
    have weaken : ∀ (or : List (List Char)),
        List.Pairwise (fun a b => a < b) (diffGo or ns (i + 1)) ∧
        ∀ x ∈ diffGo or ns (i + 1), i ≤ x := by
      intro or
      exact ⟨(ih or (i + 1)).1, fun x hx => Nat.le_of_succ_le ((ih or (i + 1)).2 x hx)⟩
    match oldRest with
    | [] =>
      simp only [diffGo]
      exact emitCase _ (ih [] (i + 1)).1 (ih [] (i + 1)).2
    | o :: os =>
      by_cases ho : o = n
      · simp only [diffGo, if_pos ho]
        exact weaken os
      · rcases hla : lookAheadIdx (o :: os) n with _ | j
        · simp only [diffGo, if_neg ho, hla]
          exact emitCase _ (ih (o :: os) (i + 1)).1 (ih (o :: os) (i + 1)).2
        · simp only [diffGo, if_neg ho, hla]
          exact weaken _

/-- Ranges flushed by the merging loop are well-formed, start no earlier than
the pending range, and are strictly separated. -/
theorem mergeGo_props (startLine : Nat) (rest : List Nat) :
    ∀ (rs re : Nat), rs ≤ re → (∀ x ∈ rest, re < x) →
      List.Pairwise (fun a b => a < b) rest →
      (∀ r ∈ mergeGo startLine rs re rest,
        r.start_line ≤ r.end_line ∧ startLine + rs ≤ r.start_line) ∧
      List.Pairwise (fun a b => a.end_line < b.start_line) (mergeGo startLine rs re rest) := by
  induction rest with
  | nil =>
    intro rs re h1 _ _
    constructor
    · intro r hr
      simp only [mergeGo, List.mem_singleton] at hr
      subst hr
      exact ⟨Nat.add_le_add_left h1 _, Nat.le_refl _⟩
    · simp [mergeGo]
  | cons o rest ih =>
    intro rs re h1 h2 h3
    have ho : re < o := h2 o (List.mem_cons_self o rest)
    have h2s : ∀ x ∈ rest, o < x := (List.pairwise_cons.mp h3).1
    have h3s := (List.pairwise_cons.mp h3).2
    by_cases hadj : o = re + 1
    · simp only [mergeGo, if_pos hadj]
      exact ih rs o (Nat.le_trans h1 (Nat.le_of_lt ho)) h2s h3s
    · simp only [mergeGo, if_neg hadj]
      have hih := ih o o (Nat.le_refl o) h2s h3s
      constructor
      · intro r hr
        rcases List.mem_cons.mp hr with rfl | hr
        · exact ⟨Nat.add_le_add_left h1 _, Nat.le_refl _⟩
        · rcases hih.1 r hr with ⟨ha, hb⟩
          refine ⟨ha, Nat.le_trans ?_ hb⟩
          exact Nat.add_le_add_left (Nat.le_trans h1 (Nat.le_of_lt ho)) _
      · refine List.pairwise_cons.mpr ⟨?_, hih.2⟩
        intro r hr
        exact Nat.lt_of_lt_of_le (Nat.add_lt_add_left ho _) ((hih.1 r hr).2)

theorem mergeOffsets_props (startLine : Nat) (offsets : List Nat)
    (hs : List.Pairwise (fun a b => a < b) offsets) :
    (∀ r ∈ mergeOffsets startLine offsets, r.start_line ≤ r.end_line) ∧
    List.Pairwise (fun a b => a.end_line < b.start_line) (mergeOffsets startLine offsets) := by
  match offsets with
  | [] => simp [mergeOffsets]
  | o :: rest =>
    have h := mergeGo_props startLine rest o o (Nat.le_refl o)
      (List.pairwise_cons.mp hs).1 (List.pairwise_cons.mp hs).2
    exact ⟨fun r hr => (h.1 r hr).1, h.2⟩

theorem fallbackRange_shape (edit : FileEdit) (fileContent : Option String) :
    ∃ r : RangePosition, fallbackRange edit fileContent = [r] ∧ r.start_line ≤ r.end_line := by
  have hlc : 1 ≤ (splitOnChar '\n' edit.new_string.data).length :=
    List.length_pos.mpr (splitOnChar_ne_nil _ _)
  rcases fileContent with _ | fc
  · exact ⟨{ start_line := 1, end_line := (splitOnChar '\n' edit.new_string.data).length },
      by simp [fallbackRange], by simpa using hlc⟩
  · by_cases hfc : fc = ""
    · exact ⟨{ start_line := 1, end_line := (splitOnChar '\n' edit.new_string.data).length },
        by simp [fallbackRange, hfc], by simpa using hlc⟩
    · rcases hidx : strIndexOf fc.data edit.new_string.data with _ | idx
      · exact ⟨{ start_line := 1, end_line := (splitOnChar '\n' edit.new_string.data).length },
          by simp [fallbackRange, hfc, hidx], by simpa using hlc⟩
      · refine ⟨⟨countNl (List.take idx fc.data) + 1,
          countNl (List.take idx fc.data) + 1 +
            (splitOnChar '\n' edit.new_string.data).length - 1⟩,
          by simp [fallbackRange, hfc, hidx], ?_⟩
        simp only
        omega

theorem computeRangeForEdit_props (edit : FileEdit) (fileContent : Option String)
    (hr : edit.range = none) :
    (∀ r ∈ computeRangeForEdit edit fileContent, r.start_line ≤ r.end_line) ∧
    List.Pairwise (fun a b => a.end_line < b.start_line)
      (computeRangeForEdit edit fileContent) := by
  have hfb : ∀ fco,
      (∀ r ∈ fallbackRange edit fco, r.start_line ≤ r.end_line) ∧
      List.Pairwise (fun a b => a.end_line < b.start_line) (fallbackRange edit fco) := by
    intro fco
    rcases fallbackRange_shape edit fco with ⟨r, heq, hle⟩
    rw [heq]
    constructor
    · intro x hx
      rw [List.mem_singleton] at hx
      subst hx
      exact hle
    · simp
  unfold computeRangeForEdit
  rw [hr]
  rcases fileContent with _ | fc
  · exact hfb none
  · by_cases hcond : edit.old_string ≠ "" ∧ edit.new_string ≠ "" ∧ fc ≠ ""
    · simp only [if_pos hcond]
      rcases hidx : strIndexOf fc.data edit.new_string.data with _ | idx
      · exact hfb (some fc)
      · exact mergeOffsets_props _ _ (diffGo_bounds _ _ _).1
    · simp only [if_neg hcond]
      exact hfb (some fc)

theorem computeRangePositions_singleton (e : FileEdit) (fc : Option String) :
    computeRangePositions [e] fc =
      if e.new_string = "" then [] else computeRangeForEdit e fc := by
  by_cases h : e.new_string = "" <;> simp [computeRangePositions, h]

theorem diffGo_self (l : List (List Char)) : ∀ i, diffGo l l i = [] := by
  induction l with
  | nil => intro i; rfl
  | cons a as ih => intro i; simp [diffGo, ih]

/-- C1 counterexample: on the edit old `line1\nline2\nline3`, new
`line1\nNEW\nline3` with no file content, `computeRangePositions` does not
identify the change as a single line: it falls back to attributing the whole
new text, one range spanning lines 1 to 3. -/
theorem singleLineClaim_counterexample :
    computeRangePositions
      [{ old_string := "line1\nline2\nline3", new_string := "line1\nNEW\nline3",
         range := none }] none = [{ start_line := 1, end_line := 3 }] ∧
    ({ start_line := 1, end_line := 3 } : RangePosition).start_line ≠
      ({ start_line := 1, end_line := 3 } : RangePosition).end_line := by
  exact ⟨by decide, by decide⟩

/-- C1 amended: for the edit old `line1\nline2\nline3`, new `line1\nNEW\nline3`,
with no file content `computeRangePositions` attributes the entire new text as
`[{start_line: 1, end_line: 3}]` (the line diff is not consulted without file
content), while the underlying diff `diffToFindChangedLines` does identify the
change as the single line offset 1; with file content `line1\nNEW\nline3` the
result is exactly `[{start_line: 2, end_line: 2}]`. -/
theorem singleLineEdit_ranges :
    computeRangePositions
      [{ old_string := "line1\nline2\nline3", new_string := "line1\nNEW\nline3",
         range := none }] none = [{ start_line := 1, end_line := 3 }] ∧
    diffToFindChangedLines "line1\nline2\nline3" "line1\nNEW\nline3" = [1] ∧
    computeRangePositions
      [{ old_string := "line1\nline2\nline3", new_string := "line1\nNEW\nline3",
         range := none }] (some "line1\nNEW\nline3") =
      [{ start_line := 2, end_line := 2 }] := by
  exact ⟨by decide, by decide, by decide⟩

/-- C2 counterexample: an edit carrying an explicit range but an empty
`new_string` is dropped by the falsy-`new_string` filter before the explicit
range is consulted, so the range is not emitted. -/
theorem explicitRangeClaim_counterexample :
    computeRangePositions
      [{ old_string := "x", new_string := "",
         range := some { start_line_number := 5, end_line_number := 7,
                         start_column := 1, end_column := 1 } }] none = [] ∧
    ([] : List RangePosition) ≠ [{ start_line := 5, end_line := 7 }] := by
  exact ⟨by decide, by decide⟩

/-- C2 amended: for every edit with a non-empty `new_string` that carries a
tool-supplied explicit range, `computeRangePositions` emits that range
verbatim as `{start_line: start_line_number, end_line: end_line_number}`,
regardless of the old and new text and of whether file content is supplied;
no diffing is performed for that edit. -/
theorem explicitRange_verbatim (old new : String) (r : ExplicitRange)
    (fc : Option String) (hnew : new ≠ "") :
    computeRangeForEdit { old_string := old, new_string := new, range := some r } fc =
      [{ start_line := r.start_line_number, end_line := r.end_line_number }] ∧
    computeRangePositions [{ old_string := old, new_string := new, range := some r }] fc =
      [{ start_line := r.start_line_number, end_line := r.end_line_number }] := by
  constructor
  · rfl
  · rw [computeRangePositions_singleton]
    simp only [hnew, if_false]
    rfl

/-- Witness for C2 amended at a concrete edit. -/
theorem explicitRange_verbatim_witness :
    computeRangePositions
      [{ old_string := "old", new_string := "new content\nline 2",
         range := some { start_line_number := 10, end_line_number := 15,
                         start_column := 1, end_column := 10 } }] none =
      [{ start_line := 10, end_line := 15 }] :=
  (explicitRange_verbatim "old" "new content\nline 2"
    { start_line_number := 10, end_line_number := 15, start_column := 1, end_column := 10 }
    none (by decide)).2

/-- C3 counterexample: a tool-supplied explicit range is emitted verbatim even
when its start exceeds its end, violating `start_line ≤ end_line`; and two
fallback edits both anchored at line 1 produce overlapping output ranges. -/
theorem rangeInvariant_counterexample :
    computeRangePositions
      [{ old_string := "a", new_string := "x",
         range := some { start_line_number := 5, end_line_number := 3,
                         start_column := 1, end_column := 1 } }] none =
      [{ start_line := 5, end_line := 3 }] ∧
    (3 : Nat) < 5 ∧
    computeRangePositions
      [{ old_string := "", new_string := "a", range := none },
       { old_string := "", new_string := "b", range := none }] none =
      [{ start_line := 1, end_line := 1 }, { start_line := 1, end_line := 1 }] := by
  exact ⟨by decide, by decide, by decide⟩

/-- C3 amended: for every single edit without an explicit range and every
optional file content, every output range of `computeRangePositions` satisfies
`start_line ≤ end_line`, and the output ranges are pairwise non-overlapping
and ordered by first occurrence (each range ends strictly before the next
begins). -/
theorem computeRanges_invariant (e : FileEdit) (fc : Option String)
    (h : e.range = none) :
    (∀ r ∈ computeRangePositions [e] fc, r.start_line ≤ r.end_line) ∧
    List.Pairwise (fun a b => a.end_line < b.start_line)
      (computeRangePositions [e] fc) := by
  rw [computeRangePositions_singleton]
  by_cases hnew : e.new_string = ""
  · simp [hnew]
  · simp only [hnew, if_false]
    exact computeRangeForEdit_props e fc h

/-- Witness for C3 amended at a concrete diffed edit. -/
theorem computeRanges_invariant_witness :
    (∀ r ∈ computeRangePositions
        [{ old_string := "line1\nline2\nline3", new_string := "line1\nNEW\nline3",
           range := none }] (some "line1\nNEW\nline3"),
      r.start_line ≤ r.end_line) ∧
    List.Pairwise (fun a b => a.end_line < b.start_line)
      (computeRangePositions
        [{ old_string := "line1\nline2\nline3", new_string := "line1\nNEW\nline3",
           range := none }] (some "line1\nNEW\nline3")) :=
  computeRanges_invariant
    { old_string := "line1\nline2\nline3", new_string := "line1\nNEW\nline3", range := none }
    (some "line1\nNEW\nline3") rfl

/-- C4 counterexample: an edit whose `old_string` equals its `new_string`
yields a non-empty range set when no file content is supplied (the fallback
attributes the whole new text), and also when it carries an explicit range. -/
theorem noopEditClaim_counterexample :
    computeRangePositions [{ old_string := "x", new_string := "x", range := none }] none =
      [{ start_line := 1, end_line := 1 }] ∧
    [({ start_line := 1, end_line := 1 } : RangePosition)] ≠ [] ∧
    computeRangePositions
      [{ old_string := "x", new_string := "x",
         range := some { start_line_number := 5, end_line_number := 7,
                         start_column := 1, end_column := 1 } }] none =
      [{ start_line := 5, end_line := 7 }] := by
  exact ⟨by decide, by decide, by decide⟩

/-- C4 amended: for every edit whose non-empty `old_string` equals its
`new_string`, with no explicit range, and with non-empty file content in
which the new text is locatable, `computeRangePositions` produces an empty
range set for that edit (the line diff of equal strings yields no changed
offsets). -/
theorem noopEdit_empty (s fc : String) (idx : Nat) (hs : s ≠ "") (hfc : fc ≠ "")
    (hidx : strIndexOf fc.data s.data = some idx) :
    computeRangePositions [{ old_string := s, new_string := s, range := none }]
      (some fc) = [] := by
  rw [computeRangePositions_singleton]
  simp only [hs, if_false]
  have hcond : s ≠ "" ∧ s ≠ "" ∧ fc ≠ "" := ⟨hs, hs, hfc⟩
  simp [computeRangeForEdit, hcond, hidx, diffToFindChangedLines, diffGo_self, mergeOffsets]

/-- Witness for C4 amended: the no-op edit `x` over file content `x`. -/
theorem noopEdit_empty_witness :
    computeRangePositions [{ old_string := "x", new_string := "x", range := none }]
      (some "x") = [] :=
  noopEdit_empty "x" "x" 0 (by decide) (by decide) (by decide)

theorem splitOnChar_append_sep (c : Char) (a b : List Char) :
    splitOnChar c (a ++ c :: b) = splitOnChar c a ++ splitOnChar c b := by
  induction a with
  | nil => simp [splitOnChar]
  | cons x xs ih =>
    by_cases hx : x = c
    · subst hx
      simp [splitOnChar, ih]
    · rcases hxs : splitOnChar c xs with _ | ⟨l, ls⟩
      · exact absurd hxs (splitOnChar_ne_nil c xs)
      · simp [splitOnChar, hx, ih, hxs]

theorem stripCommon_append (xs ys : List String) : stripCommon xs (xs ++ ys) = ([], ys) := by
  induction xs with
  | nil => rfl
  | cons x xs ih => simp [stripCommon, ih]

theorem pathSegments_append_slash (root rest : String) :
    pathSegments (root ++ "/" ++ rest) = pathSegments root ++ pathSegments rest := by
  unfold pathSegments
  rw [strData_append, strData_append]
  have h2 : ("/" : String).data = ['/'] := rfl
  rw [h2, List.append_assoc]
  have h3 : (['/'] ++ rest.data) = '/' :: rest.data := rfl
  rw [h3, splitOnChar_append_sep, List.filter_append, List.map_append]

theorem toRelativePath_under (root rest : String)
    (hcanon : String.intercalate "/" (pathSegments rest) = rest) :
    toRelativePath (root ++ "/" ++ rest) root = rest := by
  have hsw : jsStartsWith (root ++ "/" ++ rest) root = true := by
    simp only [jsStartsWith, strData_append, List.append_assoc]
    exact List.isPrefixOf_iff_prefix.mpr (List.prefix_append _ _)
  unfold toRelativePath
  rw [hsw]
  simp only [if_true]
  unfold nodeRelative
  rw [pathSegments_append_slash, stripCommon_append]
  simpa using hcanon

/-- C5 counterexample: the path `/home/user/projectX/f.ts` does not fall under
the workspace root `/home/user/project`, yet the record stores the rewritten
`../projectX/f.ts` rather than the path exactly as supplied, because the
source's `startsWith` test is a plain string-prefix test that also matches
sibling directories sharing the root as a string prefix. -/
theorem tracePath_counterexample :
    fallsUnderRoot "/home/user/projectX/f.ts" "/home/user/project" = false ∧
    (createTrace envP ContributorType.ai "/home/user/projectX/f.ts" emptyOpts).files.map
      (fun f => f.path) = ["../projectX/f.ts"] ∧
    ("../projectX/f.ts" : String) ≠ "/home/user/projectX/f.ts" := by
  exact ⟨by decide, by decide, by decide⟩

/-- C5 amended: the path stored in the trace record's `FileEntry` is
`toRelativePath` of the supplied path against the workspace root, which
relativizes exactly when the supplied path starts with the root as a string
prefix: a canonical path under the root directory is rewritten to its
suffix after the separator, and a path not sharing the root as a string
prefix is kept exactly as supplied; a path outside the root that does share
the prefix (a sibling directory) is rewritten to a `..`-form instead of
being kept. -/
theorem tracePath_relative :
    (∀ root rest : String, String.intercalate "/" (pathSegments rest) = rest →
      toRelativePath (root ++ "/" ++ rest) root = rest) ∧
    (∀ path root : String, jsStartsWith path root = false →
      toRelativePath path root = path) ∧
    (∀ (env : TraceEnv) (t : ContributorType) (p : String) (opts : TraceOpts),
      (createTrace env t p opts).files.map (fun f => f.path) =
        [toRelativePath p env.workspaceRoot]) := by
  refine ⟨toRelativePath_under, ?_, ?_⟩
  · intro path root h
    unfold toRelativePath
    rw [h]
    simp
  · intro env t p opts
    rfl

/-- Witness for C5 amended at the repository's own test inputs. -/
theorem tracePath_relative_witness :
    toRelativePath ("/home/user/project" ++ "/" ++ "src/file.ts") "/home/user/project" =
      "src/file.ts" ∧
    toRelativePath "/other/path/file.ts" "/home/user/project" = "/other/path/file.ts" :=
  ⟨tracePath_relative.1 "/home/user/project" "src/file.ts" (by decide),
   tracePath_relative.2.1 "/other/path/file.ts" "/home/user/project" (by decide)⟩

/-- C8: every record built by `createTrace` carries a non-empty `ranges`
sequence in its single conversation: absent or empty range positions give
exactly the default `[{start_line: 1, end_line: 1}]`, and non-empty range
positions are carried over unchanged and in order. -/
theorem traceRanges_nonempty (env : TraceEnv) (t : ContributorType) (p : String)
    (opts : TraceOpts) :
    (∀ f ∈ (createTrace env t p opts).files, ∀ c ∈ f.conversations, c.ranges ≠ []) ∧
    ((opts.rangePositions = none ∨ opts.rangePositions = some []) →
      (createTrace env t p opts).files.map
        (fun f => f.conversations.map (fun c => c.ranges)) = [[[defaultRange]]]) ∧
    (∀ l, opts.rangePositions = some l → l ≠ [] →
      (createTrace env t p opts).files.map
        (fun f => f.conversations.map (fun c => c.ranges)) = [[l.map rangeOfPos]]) := by
  refine ⟨?_, ?_, ?_⟩
  · intro f hf c hc
    simp only [createTrace, List.mem_singleton] at hf
    subst hf
    simp only [List.mem_singleton] at hc
    subst hc
    simp only
    rcases hrp : opts.rangePositions with _ | l
    · simp
    · by_cases hl : l.length = 0
      · simp [hl]
      · have : l ≠ [] := fun h => hl (by simp [h])
        simp [hl, this]
  · intro h
    rcases h with h | h <;> simp [createTrace, h]
  · intro l h hl
    have : ¬l.length = 0 := by simpa [List.length_eq_zero] using hl
    simp [createTrace, h, this]

/-- Witness for C8 at concrete inputs: absent positions give the default
range, and supplied positions are carried over. -/
theorem traceRanges_nonempty_witness :
    (createTrace envP ContributorType.ai ".sessions" emptyOpts).files.map
      (fun f => f.conversations.map (fun c => c.ranges)) = [[[defaultRange]]] ∧
    (createTrace envP ContributorType.ai "a.ts"
        { model := none, rangePositions := some [{ start_line := 2, end_line := 4 }],
          transcript := none, metadata := none }).files.map
      (fun f => f.conversations.map (fun c => c.ranges)) =
      [[[{ start_line := 2, end_line := 4, content_hash := none, contributor := none }]]] :=
  ⟨(traceRanges_nonempty envP ContributorType.ai ".sessions" emptyOpts).2.1 (Or.inl rfl),
   (traceRanges_nonempty envP ContributorType.ai "a.ts"
      { model := none, rangePositions := some [{ start_line := 2, end_line := 4 }],
        transcript := none, metadata := none }).2.2
     [{ start_line := 2, end_line := 4 }] rfl (by decide)⟩

theorem bigTranscript_data :
    bigTranscript.data = (lineA ++ ['\n', 'X', 'X']) ++ windowContent := by
  show lineA ++ '\n' :: lineB = _
  simp [lineB, windowContent, List.append_assoc]

theorem bigTranscript_length : bigTranscript.data.length = 4124 := by
  rw [bigTranscript_data]
  simp only [List.length_append, windowContent, bigId, List.length_replicate,
    (by decide : lineA.length = 25), (by decide : ['\n', 'X', 'X'].length = 3),
    (by decide : modelLineHead.length = 21), (by decide : ("\"\x7d\x7d".data).length = 3)]

theorem bigTranscript_drop :
    bigTranscript.data.drop (4124 - 4096) = windowContent := by
  rw [bigTranscript_data]
  refine List.drop_left' ?_
  simp [(by decide : lineA.length = 25)]

theorem splitOnChar_eq_single {c : Char} {l : List Char} (h : ∀ a ∈ l, ¬a = c) :
    splitOnChar c l = [l] := by
  induction l with
  | nil => rfl
  | cons a rest ih =>
    have ha : ¬a = c := h a (List.mem_cons_self a rest)
    rw [splitOnChar, if_neg ha, ih (fun x hx => h x (List.mem_cons_of_mem a hx))]

theorem windowContent_no_newline : ∀ a ∈ windowContent, ¬a = '\n' := by
  intro a ha
  simp only [windowContent, List.mem_append] at ha
  rcases ha with h | h | h
  · exact (by decide : ∀ x ∈ modelLineHead, ¬x = '\n') a h
  · rw [bigId, List.mem_replicate] at h
    rw [h.2]
    decide
  · exact (by decide : ∀ x ∈ "\"\x7d\x7d".data, ¬x = '\n') a h

theorem jsTrim_sandwich (a : Char) (mid : List Char) (b : Char)
    (ha : isWspChar a = false) (hb : isWspChar b = false) :
    jsTrim (a :: (mid ++ [b])) = a :: (mid ++ [b]) := by
  unfold jsTrim
  rw [List.dropWhile_cons_of_neg (by simp [ha])]
  have h1 : (a :: (mid ++ [b])).reverse = b :: (mid.reverse ++ [a]) := by simp
  rw [h1, List.dropWhile_cons_of_neg (by simp [hb])]
  have h2 : (b :: (mid.reverse ++ [a])).reverse = a :: (mid ++ [b]) := by simp
  rw [h2]

theorem windowContent_eq :
    windowContent =
      '\x7b' :: (("\"message\":\x7b\"model\":\"".data ++ bigId ++ ['\"', '\x7d']) ++ ['\x7d']) := by
  simp only [windowContent,
    (by decide : modelLineHead = '\x7b' :: "\"message\":\x7b\"model\":\"".data),
    (by decide : "\"\x7d\x7d".data = ['\"', '\x7d'] ++ ['\x7d']), List.append_assoc,
    List.cons_append, List.nil_append]

theorem jsTrim_windowContent : jsTrim windowContent = windowContent := by
  rw [windowContent_eq]
  exact jsTrim_sandwich _ _ _ (by decide) (by decide)

theorem takeWhile_replicate_append (p : Char → Bool) (c : Char) (hc : p c = true)
    (l : List Char) (n : Nat) :
    ((List.replicate n c) ++ l).takeWhile p = List.replicate n c ++ l.takeWhile p := by
  induction n with
  | zero => simp
  | succ n ih => simp [List.replicate_succ, hc, ih]

theorem parseLineModel_windowContent : parseLineModel windowContent = some bigId := by
  have hpre : modelLineHead.isPrefixOf windowContent = true :=
    List.isPrefixOf_iff_prefix.mpr ⟨bigId ++ "\"\x7d\x7d".data, rfl⟩
  have hdrop21 : windowContent.drop modelLineHead.length = bigId ++ "\"\x7d\x7d".data :=
    List.drop_left _ _
  have htake : (bigId ++ "\"\x7d\x7d".data).takeWhile (fun ch => ch != '"') = bigId := by
    rw [bigId, takeWhile_replicate_append _ _ (by decide) _ _,
      (by decide : ("\"\x7d\x7d".data).takeWhile (fun ch => ch != '"') = []),
      List.append_nil]
  have hne : bigId ≠ [] := by
    intro h
    have h2 := congrArg List.length h
    rw [bigId, List.length_replicate, List.length_nil] at h2
    omega
  have hall : bigId.all (fun ch => ch != '\\') = true := by
    rw [List.all_eq_true]
    intro x hx
    rw [bigId, List.mem_replicate] at hx
    rw [hx.2]
    decide
  have hlen : bigId.length = 4072 := by rw [bigId, List.length_replicate]
  have hdrop2 : (bigId ++ "\"\x7d\x7d".data).drop bigId.length = "\"\x7d\x7d".data :=
    List.drop_left _ _
  simp only [parseLineModel, hpre, if_true, hdrop21, htake]
  rw [if_pos ⟨hne, hall, hdrop2⟩]

theorem windowContent_ne_nil : windowContent ≠ [] := by
  rw [windowContent_eq]
  simp

theorem scanLines_windowContent : scanLines [windowContent] = some bigId := by
  have h : scanLines [windowContent] =
      if jsTrim windowContent = [] then none
      else parseLineModel (jsTrim windowContent) := rfl
  rw [h, jsTrim_windowContent, if_neg windowContent_ne_nil]
  exact parseLineModel_windowContent

theorem extractLoop_found {file : List Char} {readSize fuel : Nat} {m : List Char}
    (h : scanLines (splitOnChar '\n' (file.drop (file.length - readSize))) = some m) :
    extractLoop file readSize (fuel + 1) = some m := by
  simp only [extractLoop, h]

theorem extract_bigTranscript :
    extractModelFromTranscript (some bigTranscript) = some (String.mk bigId) := by
  have hscan : scanLines (splitOnChar '\n'
      (bigTranscript.data.drop (bigTranscript.data.length - 4096))) = some bigId := by
    rw [bigTranscript_length, (by decide : (4124 : Nat) - 4096 = 28),
      (by decide : (28 : Nat) = 4124 - 4096), bigTranscript_drop,
      splitOnChar_eq_single windowContent_no_newline]
    exact scanLines_windowContent
  show (extractLoop bigTranscript.data (min bigTranscript.data.length (4 * 1024))
      (bigTranscript.data.length + 1)).map (fun l => String.mk l) = some (String.mk bigId)
  rw [bigTranscript_length, (by decide : min (4124 : Nat) (4 * 1024) = 4096)]
  rw [extractLoop_found hscan]
  rfl

theorem scanLines_cons (l : List Char) (ls : List (List Char)) :
    scanLines (l :: ls) =
      match scanLines ls with
      | some m => some m
      | none => if jsTrim l = [] then none else parseLineModel (jsTrim l) := rfl

theorem lineA_no_newline : ∀ a ∈ lineA, ¬a = '\n' := by decide

theorem lineB_eq_window : lineB = 'X' :: 'X' :: windowContent := by
  simp [lineB, windowContent, List.append_assoc]

theorem lineB_no_newline : ∀ a ∈ lineB, ¬a = '\n' := by
  rw [lineB_eq_window]
  intro a ha
  rcases List.mem_cons.mp ha with rfl | ha
  · decide
  rcases List.mem_cons.mp ha with rfl | ha
  · decide
  exact windowContent_no_newline a ha

theorem lineB_eq :
    lineB = 'X' :: (('X' :: (modelLineHead ++ bigId ++ ['\"', '\x7d'])) ++ ['\x7d']) := by
  simp only [lineB, (by decide : "\"\x7d\x7d".data = ['\"', '\x7d'] ++ ['\x7d']),
    List.append_assoc, List.cons_append, List.nil_append]

theorem jsTrim_lineB : jsTrim lineB = lineB := by
  rw [lineB_eq]
  exact jsTrim_sandwich _ _ _ (by decide) (by decide)

theorem parseLineModel_lineB : parseLineModel lineB = none := by
  have hp : modelLineHead.isPrefixOf lineB = false := by
    rw [(by decide : modelLineHead = '\x7b' :: "\"message\":\x7b\"model\":\"".data),
      lineB_eq_window]
    simp only [List.isPrefixOf]
    rw [(by decide : ('\x7b' == 'X') = false), Bool.false_and]
  simp [parseLineModel, hp]

theorem lineB_ne_nil : lineB ≠ [] := by
  rw [lineB_eq_window]
  exact List.cons_ne_nil _ _

theorem scanLines_full : scanLines [lineA, lineB] = some ['A'] := by
  have hB : scanLines [lineB] = none := by
    rw [scanLines_cons lineB []]
    show (if jsTrim lineB = [] then none else parseLineModel (jsTrim lineB)) = none
    rw [jsTrim_lineB, if_neg lineB_ne_nil]
    exact parseLineModel_lineB
  rw [scanLines_cons lineA [lineB], hB]
  show (if jsTrim lineA = [] then none else parseLineModel (jsTrim lineA)) = some ['A']
  decide

theorem spec_bigTranscript : specLatestModel bigTranscript = some "A" := by
  unfold specLatestModel
  have hsplit : splitOnChar '\n' bigTranscript.data = [lineA, lineB] := by
    show splitOnChar '\n' (lineA ++ '\n' :: lineB) = _
    rw [splitOnChar_append_sep, splitOnChar_eq_single lineA_no_newline,
      splitOnChar_eq_single lineB_no_newline]
    rfl
  rw [hsplit, scanLines_full]
  rfl

/-- C6 counterexample: on the 4124-character transcript whose first window
boundary cuts the malformed last line into a fragment that parses on its own,
`extractModelFromTranscript` returns the fragment's model (4072 `b`s) instead
of the model `A` of the line closest to the end of the file that parses and
carries one. -/
theorem extractModelClaim_counterexample :
    extractModelFromTranscript (some bigTranscript) = some (String.mk bigId) ∧
    specLatestModel bigTranscript = some "A" ∧
    (String.mk bigId : String) ≠ "A" := by
  refine ⟨extract_bigTranscript, spec_bigTranscript, ?_⟩
  intro h
  have h2 := congrArg (fun s : String => s.data.length) h
  simp only [bigId, List.length_replicate] at h2
  exact absurd h2 (by decide)

theorem scanLines_append (a b : List (List Char)) :
    scanLines (a ++ b) =
      match scanLines b with
      | some m => some m
      | none => scanLines a := by
  induction a with
  | nil =>
    show scanLines b = _
    cases scanLines b <;> rfl
  | cons l ls ih =>
    rw [List.cons_append, scanLines_cons, ih, scanLines_cons]
    cases scanLines b <;> cases scanLines ls <;> rfl

theorem scanLines_suffix {L1 L2 : List (List Char)} (h : L2 <:+ L1) {m : List Char}
    (hm : scanLines L2 = some m) : scanLines L1 = some m := by
  rcases h with ⟨pre, rfl⟩
  rw [scanLines_append, hm]

theorem splitOnChar_drop (f : List Char) :
    ∀ k, ∃ (frag l : List Char) (rest : List (List Char)),
      splitOnChar '\n' (f.drop k) = frag :: rest ∧ frag <:+ l ∧
      (l :: rest) <:+ splitOnChar '\n' f := by
  intro k
  induction k with
  | zero =>
    rcases hf : splitOnChar '\n' f with _ | ⟨h, t⟩
    · exact absurd hf (splitOnChar_ne_nil _ _)
    · refine ⟨h, h, t, ?_, List.suffix_refl h, ?_⟩
      · rw [List.drop_zero, hf]
      · exact List.suffix_refl _
  | succ k ih =>
    obtain ⟨frag, l, rest, heq, hsfx, hlines⟩ := ih
    have hdrop : f.drop (k + 1) = (f.drop k).drop 1 := by
      rw [List.drop_drop]
    rcases hdk : f.drop k with _ | ⟨c, r⟩
    · refine ⟨frag, l, rest, ?_, hsfx, hlines⟩
      rw [hdrop, hdk]
      rw [hdk] at heq
      exact heq
    · by_cases hc : c = '\n'
      · subst hc
        rw [hdk] at heq
        rw [splitOnChar, if_pos rfl] at heq
        rcases hr : splitOnChar '\n' r with _ | ⟨h2, t2⟩
        · exact absurd hr (splitOnChar_ne_nil _ _)
        · refine ⟨h2, h2, t2, ?_, List.suffix_refl h2, ?_⟩
          · rw [hdrop, hdk]
            show splitOnChar '\n' r = h2 :: t2
            exact hr
          · have hrest : rest = h2 :: t2 := by
              have := heq.symm
              rw [hr] at this
              exact (List.cons.injEq _ _ _ _).mp this |>.2
            have h3 : (h2 :: t2) <:+ (l :: rest) := by
              rw [hrest]
              exact ⟨[l], rfl⟩
            exact h3.trans hlines
      · rw [hdk] at heq
        rw [splitOnChar, if_neg hc] at heq
        rcases hr : splitOnChar '\n' r with _ | ⟨h2, t2⟩
        · exact absurd hr (splitOnChar_ne_nil _ _)
        · rw [hr] at heq
          have hfrag : frag = c :: h2 := ((List.cons.injEq _ _ _ _).mp heq).1.symm
          have hrest : rest = t2 := ((List.cons.injEq _ _ _ _).mp heq).2.symm
          refine ⟨h2, l, t2, ?_, ?_, ?_⟩
          · rw [hdrop, hdk]
            show splitOnChar '\n' r = h2 :: t2
            exact hr
          · have : h2 <:+ c :: h2 := ⟨[c], rfl⟩
            rw [← hfrag] at this
            exact this.trans hsfx
          · rw [← hrest]
            exact hlines

theorem mem_strictTails {frag l : List Char} (h : frag <:+ l) (hne : frag ≠ l) :
    frag ∈ strictTails l := by
  match l with
  | [] => exact absurd (List.suffix_nil.mp h) hne
  | a :: as =>
    have h2 : frag <:+ as := by
      rcases List.suffix_cons_iff.mp h with h | h
      · exact absurd h hne
      · exact h
    unfold strictTails
    rw [List.tails_cons, List.drop_one, List.tail_cons]
    exact (List.mem_tails _ _).mpr h2

theorem noStrictSuffixParses_elim {f : List Char} (hH : noStrictSuffixParses f = true)
    {l frag : List Char} (hl : l ∈ splitOnChar '\n' f) (hs : frag <:+ l) (hne : frag ≠ l) :
    parseLineModel (jsTrim frag) = none := by
  unfold noStrictSuffixParses at hH
  rw [List.all_eq_true] at hH
  have h1 := hH l hl
  rw [List.all_eq_true] at h1
  have h2 := h1 frag (mem_strictTails hs hne)
  simpa [Option.isNone_iff_eq_none] using h2

/-- Whatever a tail window's scan finds is what the whole-file scan finds,
provided no window-boundary fragment parses on its own. -/
theorem window_scan_sound {f : List Char} (hH : noStrictSuffixParses f = true)
    (k : Nat) {m : List Char}
    (hs : scanLines (splitOnChar '\n' (f.drop k)) = some m) :
    scanLines (splitOnChar '\n' f) = some m := by
  obtain ⟨frag, l, rest, heq, hsfx, hlines⟩ := splitOnChar_drop f k
  rw [heq] at hs
  by_cases hfl : frag = l
  · subst hfl
    exact scanLines_suffix hlines hs
  · have hnone : parseLineModel (jsTrim frag) = none :=
      noStrictSuffixParses_elim hH (hlines.subset (List.mem_cons_self l rest)) hsfx hfl
    have hrest : scanLines rest = some m := by
      rw [scanLines_cons] at hs
      rcases hr : scanLines rest with _ | m2
      · rw [hr] at hs
        by_cases ht : jsTrim frag = []
        · simp [ht] at hs
        · simp only [ht, if_neg, hnone] at hs
          exact absurd hs (by simp)
      · rw [hr] at hs
        simp at hs
        rw [hs]
    have hsub : rest <:+ splitOnChar '\n' f := (List.suffix_cons l rest).trans hlines
    exact scanLines_suffix hsub hrest

theorem extractLoop_succ (file : List Char) (readSize fuel : Nat) :
    extractLoop file readSize (fuel + 1) =
      match scanLines (splitOnChar '\n' (file.drop (file.length - readSize))) with
      | some m => some m
      | none =>
        if file.length ≤ readSize then none
        else extractLoop file (min file.length (2 * readSize)) fuel := rfl

/-- With enough fuel and a positive (or already full) window, the expanding
window loop computes exactly the whole-file scan. -/
theorem extractLoop_eq_scan (f : List Char) (hH : noStrictSuffixParses f = true) :
    ∀ (fuel rs : Nat), f.length - rs < fuel → (0 < rs ∨ f.length ≤ rs) →
      extractLoop f rs fuel = scanLines (splitOnChar '\n' f) := by
  intro fuel
  induction fuel with
  | zero =>
    intro rs hlt
    omega
  | succ fuel ih =>
    intro rs hlt hrs
    rw [extractLoop_succ]
    rcases hscan : scanLines (splitOnChar '\n' (f.drop (f.length - rs))) with _ | m
    · show (if f.length ≤ rs then none
          else extractLoop f (min f.length (2 * rs)) fuel) =
        scanLines (splitOnChar '\n' f)
      by_cases hfull : f.length ≤ rs
      · rw [if_pos hfull]
        have h0 : f.length - rs = 0 := by omega
        rw [h0, List.drop_zero] at hscan
        exact hscan.symm
      · rw [if_neg hfull]
        have h1 : 0 < rs := by
          rcases hrs with h | h
          · exact h
          · omega
        apply ih
        · omega
        · left
          omega
    · show some m = scanLines (splitOnChar '\n' f)
      exact (window_scan_sound hH _ hscan).symm

/-- C6 amended: `extractModelFromTranscript` never raises: an unopenable or
unreadable file yields `none`; and provided no expanding-window boundary cuts
a line into a suffix fragment that itself parses as a model-bearing record,
it returns exactly the model field of the line closest to the end of the file
that parses and carries one (blank and unparsable lines silently skipped,
window doubling capped at the file size), `none` when no line qualifies.
Without that proviso the boundary fragment's model can be returned instead. -/
theorem extractModel_amended :
    extractModelFromTranscript none = none ∧
    (∀ f : String, noStrictSuffixParses f.data = true →
      extractModelFromTranscript (some f) = specLatestModel f) := by
  refine ⟨rfl, ?_⟩
  intro f hH
  show (extractLoop f.data (min f.data.length (4 * 1024)) (f.data.length + 1)).map
      (fun l => String.mk l) =
    (scanLines (splitOnChar '\n' f.data)).map (fun l => String.mk l)
  rw [extractLoop_eq_scan f.data hH (f.data.length + 1) (min f.data.length (4 * 1024))
    (by omega) ?_]
  rcases Nat.eq_zero_or_pos f.data.length with h0 | h0
  · right
    omega
  · left
    omega

/-- Witness for C6 amended: on a well-formed two-line transcript the
extraction returns the model of the last line. -/
theorem extractModel_amended_witness :
    noStrictSuffixParses sampleTranscript.data = true ∧
    extractModelFromTranscript (some sampleTranscript) = specLatestModel sampleTranscript ∧
    specLatestModel sampleTranscript = some "m2" :=
  ⟨by decide, extractModel_amended.2 sampleTranscript (by decide), by decide⟩

/-- C9: error-propagation policy.  `computeRangePositions` and
`extractModelFromTranscript` never raise: both are embedded as total
functions into pure result types, every input yields a plain value, and the
resolver turns an unopenable or unreadable transcript (the `none` input) into
`none` rather than an error.  `appendTrace` has no fallback: failure to
create the missing log directory, or failure to append, propagates to the
caller as an error; only when both syscalls succeed does the log grow, by
exactly the serialized record plus a newline. -/
theorem errorPropagation_policy (stringify : TraceRecord → String) (fs : FsState)
    (trace : TraceRecord) :
    (∀ (edits : List FileEdit) (fc : Option String),
      ∃ rs : List RangePosition, computeRangePositions edits fc = rs) ∧
    extractModelFromTranscript none = none ∧
    (fs.dirExists = false → fs.mkdirFails = true →
      appendTrace stringify fs trace = Except.error "mkdirSync failed") ∧
    (fs.appendFails = true → (appendTrace stringify fs trace).isOk = false) ∧
    (fs.appendFails = false → (fs.dirExists = true ∨ fs.mkdirFails = false) →
      appendTrace stringify fs trace = Except.ok
        { fs with dirExists := true,
                  logContent := fs.logContent ++ stringify trace ++ "\n" }) := by
  obtain ⟨de, mf, af, lc⟩ := fs
  refine ⟨fun edits fc => ⟨computeRangePositions edits fc, rfl⟩, rfl, ?_, ?_, ?_⟩
  · intro h1 h2
    subst h1
    subst h2
    rfl
  · intro h1
    subst h1
    cases de <;> cases mf <;> rfl
  · intro h1 h2
    subst h1
    cases de
    · rcases h2 with h2 | h2
      · simp at h2
      · subst h2
        rfl
    · rfl

/-- Witness for C9 at a concrete file-system state and record: a missing
directory whose creation fails yields the propagated mkdir error. -/
theorem errorPropagation_policy_witness :
    appendTrace (fun _ => "rec")
      { dirExists := false, mkdirFails := true, appendFails := false, logContent := "" }
      (createTrace envP ContributorType.ai ".sessions" emptyOpts) =
      Except.error "mkdirSync failed" :=
  (errorPropagation_policy (fun _ => "rec")
    { dirExists := false, mkdirFails := true, appendFails := false, logContent := "" }
    (createTrace envP ContributorType.ai ".sessions" emptyOpts)).2.2.1 rfl rfl
